import Mathlib

/-!
Verification development for the cgx bit-field / bit-message library
(`src/field.hpp` and the message header).

The C++ templates are shallowly embedded:
- a value type `T` (an integer type of at most 32 bits, signed or unsigned)
  becomes a `ctype` descriptor; machine values are mathematical `Int`s in
  the type's range, raw wire words are `Nat`s reduced `% 2^w` where the
  C++ performs fixed-width arithmetic;
- the template parameters `<T, NBitsT, TID, EndianessT>` of `field_t`
  become a `field_decl` record, and a `field_t` instance carries its
  declaration plus the mutable members `m_value`, `m_valid`,
  `m_condition`;
- `std::function<bool(field_t&, const T&)>` conditions become
  `Option cond_fn`, where a `cond_fn` receives the current value and the
  candidate value and returns the acceptance verdict together with the
  (possibly `force`-rewritten) field value.  The only mutation any
  condition in the source performs on the field is `force`, whose effect
  on `m_valid` is dead code because `validate()` overwrites `m_valid`
  with the condition's return value immediately afterwards;
- `msg_t`'s heterogeneous `std::tuple` of fields becomes a `List field_t`;
  the logger calls and the post-decode callback are recorded as a list of
  `log_event`s returned next to the decoded message, and the callback's
  presence is the boolean `m_callback`;
- `std::size_t` arithmetic wraps modulo `2^64`, `std::uint32_t`
  arithmetic modulo `2^32`; byte buffers are total functions
  `Nat → Nat` (the C++ pointer is unchecked, so reads past the caller's
  buffer are modelled as ordinary reads of the function).
-/

namespace cgx
namespace bit

/-- Bit order of a field, `enum class endianess { little, big }`. -/
inductive endianess where
  | little
  | big
deriving DecidableEq

/-- Descriptor of the C++ value type `T` of a field: its signedness and its
size in bytes (`sizeof(T)`; the source asserts `sizeof(T) <= 4`). -/
structure ctype where
  signed : Bool
  nbytes : Nat
deriving DecidableEq

/-- Width of the value type in bits. -/
def ctype.bits (t : ctype) : Nat := 8 * t.nbytes

/-- Value of `std::numeric_limits<T>::min()`. -/
def ctype.tmin (t : ctype) : Int :=
  if t.signed then -((2 : Int) ^ (t.bits - 1)) else 0

/-- Value of `std::numeric_limits<T>::max()`. -/
def ctype.tmax (t : ctype) : Int :=
  if t.signed then (2 : Int) ^ (t.bits - 1) - 1 else (2 : Int) ^ t.bits - 1

/-- The unsigned bit pattern (two's complement) of a value of type `T`,
as produced by `memcpy` of the object representation on a little-endian
host into the low bytes of a zeroed `std::uint32_t`. -/
def ctype.toRaw (t : ctype) (v : Int) : Nat :=
  (v % ((2 : Int) ^ t.bits)).toNat

/-- The value of type `T` whose object representation is the low
`t.bits` bits of `r`, as produced by `memcpy` of the low bytes of a
`std::uint32_t` into a `T` on a little-endian host. -/
def ctype.ofRaw (t : ctype) (r : Nat) : Int :=
  if t.signed && decide (2 ^ (t.bits - 1) ≤ r % 2 ^ t.bits) then
    ((r % 2 ^ t.bits : Nat) : Int) - (2 : Int) ^ t.bits
  else
    ((r % 2 ^ t.bits : Nat) : Int)

/-- `static_cast<T>(x)` for an integer `x` of a wider type: truncation to
the low `t.bits` bits, reinterpreted per the signedness of `T`. -/
def ctype.cast (t : ctype) (x : Int) : Int := t.ofRaw (t.toRaw x)

/-- The three value types used by the example program and the tests. -/
def uint8 : ctype := ⟨false, 1⟩

/-- Unsigned 16-bit value type. -/
def uint16 : ctype := ⟨false, 2⟩

/-- Signed 8-bit value type. -/
def int8 : ctype := ⟨true, 1⟩

/-- The compile-time template arguments of one `field_t` instantiation:
value type, bit width `NBitsT`, identifier type value `TID{}`, and bit
order. -/
structure field_decl where
  T : ctype
  n_bits : Nat
  tid : Nat
  endian : endianess

/-- `n_bytes = (n_bits + 7) / 8` of a field declaration. -/
def field_decl.n_bytes (d : field_decl) : Nat := (d.n_bits + 7) / 8

/-- Model of `std::function<bool(field_t&, const T&)>`: from the current
field value and the candidate value to the verdict and the resulting
field value (conditions other than `clamp` leave the value unchanged). -/
def cond_fn : Type := Int → Int → Bool × Int

/-- The value `(1 << NBitsT) - 1` is computed in (32-bit) `int`
arithmetic and then `static_cast` to `T`; the cast truncates modulo
`2^t.bits` with `t.bits ≤ 32`, so the intermediate 32-bit wrap (which
only occurs for `NBitsT = 31`, where it reproduces `2^31 - 1`) is
absorbed by the cast.  `default_max` is the `max` constant of the
default condition lambda in `field_t`. -/
def default_max (t : ctype) (n_bits : Nat) : Int :=
  if n_bits = 32 then t.tmax else t.cast ((2 : Int) ^ n_bits - 1)

/-- The default value of `m_condition`: the range-check lambda installed
by the in-class initializer of `field_t::m_condition`. -/
def default_condition (d : field_decl) : cond_fn := fun val v =>
  (decide (d.T.tmin ≤ v) && decide (v ≤ default_max d.T d.n_bits), val)

/-- One `field_t` object: its declaration plus the data members
`m_value`, `m_valid` and `m_condition`. -/
structure field_t where
  decl : field_decl
  m_value : Int
  m_valid : Bool
  m_condition : Option cond_fn

/-- The default constructor `field_t()`: value `T{} = 0`, `m_valid =
false`, `m_condition` the default range check. -/
def field_t.mk_default (d : field_decl) : field_t :=
  ⟨d, 0, false, some (default_condition d)⟩

/-- The constructor `field_t(condition)`: value `0`, `m_valid = false`,
the given condition. -/
def field_t.mk_with_cond (d : field_decl) (c : cond_fn) : field_t :=
  ⟨d, 0, false, some c⟩

/-- A fresh field of declaration `d` carrying condition slot `c`
(`none` models a null `std::function`). -/
def field_t.fresh (d : field_decl) (c : Option cond_fn) : field_t :=
  ⟨d, 0, false, c⟩

/-- `field_t::id()` returns `static_cast<std::uint32_t>(TID{})`. -/
def field_t.id (f : field_t) : Nat := f.decl.tid % 2 ^ 32

/-- `field_t::value()`. -/
def field_t.value (f : field_t) : Int := f.m_value

/-- `field_t::is_valid()`. -/
def field_t.is_valid (f : field_t) : Bool := f.m_valid

/-- `field_t::force(other)`: set the value and mark valid
unconditionally. -/
def field_t.force (f : field_t) (v : Int) : field_t :=
  { f with m_value := v, m_valid := true }

/-- `field_t::validate()`: if `m_condition` is null, `m_valid = true`;
otherwise run the condition on the current value (it may rewrite the
value through `force`) and store its verdict into `m_valid`. -/
def field_t.validate (f : field_t) : field_t :=
  match f.m_condition with
  | none => { f with m_valid := true }
  | some c =>
    let r := c f.m_value f.m_value
    { f with m_value := r.2, m_valid := r.1 }

/-- `field_t::operator=(const value_type&)`: store the value, then
re-validate. -/
def field_t.assign (f : field_t) (v : Int) : field_t :=
  field_t.validate { f with m_value := v }

/-- `field_t::init(value)`: same mutation as assignment from a value. -/
def field_t.init (f : field_t) (v : Int) : field_t := f.assign v

/-- The expression `(bytes[i/8] >> (i%8)) & 1` read by
`lsb_unmarshal`. -/
def input_bit_lsb (bytes : Nat → Nat) (i : Nat) : Nat :=
  (bytes (i / 8) >>> (i % 8)) &&& 1

/-- The expression `(bytes[i/8] >> (7 - (i%8))) & 1` read by
`msb_unmarshal`. -/
def input_bit_msb (bytes : Nat → Nat) (i : Nat) : Nat :=
  (bytes (i / 8) >>> (7 - i % 8)) &&& 1

/-- `field_t::lsb_unmarshal`: the loop runs `i` from `bit_offset` to
`bit_offset + n_bits`, ORing input bit `i` into `raw` at position
`i - bit_offset`; here the loop counter is re-indexed as `j = i - off`.
`raw` is a `std::uint32_t`, hence the `% 2^32` on the shifted bit. -/
def lsb_unmarshal (n : Nat) (bytes : Nat → Nat) (off : Nat) : Nat :=
  (List.range n).foldl
    (fun raw j => raw ||| ((input_bit_lsb bytes (off + j) <<< j) % 2 ^ 32)) 0

/-- `field_t::msb_unmarshal`: shift-left-then-OR accumulation of input
bits, re-indexed as `j = i - off`; `raw <<= 1` wraps at `2^32`. -/
def msb_unmarshal (n : Nat) (bytes : Nat → Nat) (off : Nat) : Nat :=
  (List.range n).foldl
    (fun raw j => ((raw <<< 1) % 2 ^ 32) ||| input_bit_msb bytes (off + j)) 0

/-- `field_t::unmarshal(bytes, bit_offset)`: decode the raw word with
the bit-order chosen by `EndianessT`, `memcpy` it into `m_value`
(truncating to the low `sizeof(T)` bytes on a little-endian host), then
`validate()`.  The C++ member returns `is_valid()`; callers of this
model read `m_valid` of the result. -/
def field_t.unmarshal (f : field_t) (bytes : Nat → Nat) (off : Nat) : field_t :=
  let raw :=
    match f.decl.endian with
    | .little => lsb_unmarshal f.decl.n_bits bytes off
    | .big => msb_unmarshal f.decl.n_bits bytes off
  field_t.validate { f with m_value := f.decl.T.ofRaw raw }

/-- One iteration of the `marshal()` loop: OR bit `g i` (always 0 or 1)
into byte `i / 8` at position `i % 8`.  The byte stays below 256, so the
`std::uint8_t` store never truncates. -/
def scatter_step (g : Nat → Nat) (bs : Nat → Nat) (i : Nat) : Nat → Nat :=
  fun k => if k = i / 8 then bs k ||| (g i <<< (i % 8)) else bs k

/-- `field_t::marshal()`: `memcpy` the value into a zeroed
`std::uint32_t` `raw`, then scatter its bits into a zero-initialized
byte array of `n_bytes` entries (modelled as a function; the loop only
ever writes indices below `n_bytes`).  Little endian emits raw bit `i`,
big endian emits raw bit `n_bits - i - 1`, both at byte `i/8`, position
`i%8`. -/
def field_t.marshal (f : field_t) : Nat → Nat :=
  let raw := f.decl.T.toRaw f.m_value
  match f.decl.endian with
  | .little =>
    (List.range f.decl.n_bits).foldl
      (scatter_step (fun i => (raw >>> i) &&& 1)) (fun _ => 0)
  | .big =>
    (List.range f.decl.n_bits).foldl
      (scatter_step (fun i => (raw >>> (f.decl.n_bits - i - 1)) &&& 1)) (fun _ => 0)

/-- Condition builder `any()`: returns `field_t{}`, i.e. a
default-constructed field whose condition is the default range check. -/
def field_t.any (d : field_decl) : field_t := field_t.mk_default d

/-- Condition builder `equal_to(value)`. -/
def field_t.equal_to (d : field_decl) (value : Int) : field_t :=
  field_t.mk_with_cond d (fun val v => (decide (v = value), val))

/-- Condition builder `not_equal_to(value)`. -/
def field_t.not_equal_to (d : field_decl) (value : Int) : field_t :=
  field_t.mk_with_cond d (fun val v => (decide (v ≠ value), val))

/-- Condition builder `greater_than(value)`. -/
def field_t.greater_than (d : field_decl) (value : Int) : field_t :=
  field_t.mk_with_cond d (fun val v => (decide (value < v), val))

/-- Condition builder `less_than(value)`. -/
def field_t.less_than (d : field_decl) (value : Int) : field_t :=
  field_t.mk_with_cond d (fun val v => (decide (v < value), val))

/-- Condition builder `greater_equal_to(value)`. -/
def field_t.greater_equal_to (d : field_decl) (value : Int) : field_t :=
  field_t.mk_with_cond d (fun val v => (decide (value ≤ v), val))

/-- Condition builder `less_equal_to(value)`. -/
def field_t.less_equal_to (d : field_decl) (value : Int) : field_t :=
  field_t.mk_with_cond d (fun val v => (decide (v ≤ value), val))

/-- Condition builder `between(min, max)`. -/
def field_t.between (d : field_decl) (lo hi : Int) : field_t :=
  field_t.mk_with_cond d (fun val v => (decide (lo ≤ v) && decide (v ≤ hi), val))

/-- Condition builder `clamp(min, max)`: always accepts, forcing the
value to the violated bound first. -/
def field_t.clamp (d : field_decl) (lo hi : Int) : field_t :=
  field_t.mk_with_cond d (fun val v =>
    if v < lo then (true, lo) else if hi < v then (true, hi) else (true, val))

/-- Condition builder `condition(fn)`. -/
def field_t.condition (d : field_decl) (c : cond_fn) : field_t :=
  field_t.mk_with_cond d c

/-- `field_t::set_condition`. -/
def field_t.set_condition (f : field_t) (c : cond_fn) : field_t :=
  { f with m_condition := some c }

/-- Observable interactions of one `msg_t::on_unmarshal` call, in
occurrence order: the logger hooks the message invokes and the
post-decode callback (which receives the message, recorded here as the
field list it sees). -/
inductive log_event where
  | unmarshalStart
  | errorBitSize (got expected : Nat)
  | errorUnmarshal (field_id : Nat)
  | unmarshalEnd
  | callbackRun (fields : List field_t)

/-- One `msg_t` object: the tuple of fields plus the data members
`valid`, `m_custom_validator` (reads the message through its fields) and
`m_callback` (its presence; the body is an external side effect and is
recorded as a `callbackRun` event when invoked). -/
structure msg_t where
  fields : List field_t
  valid : Bool
  m_custom_validator : Option (List field_t → Bool)
  m_callback : Bool

/-- `msg_t::n_fields = sizeof...(TFields)`. -/
def msg_t.n_fields (m : msg_t) : Nat := m.fields.length

/-- Sum of the declared widths of a list of fields, `sum_bits`. -/
def sum_bits (fs : List field_t) : Nat :=
  (fs.map fun f => f.decl.n_bits).sum

/-- `msg_t::n_bits = sum_bits<TFields...>()`. -/
def msg_t.n_bits (m : msg_t) : Nat := sum_bits m.fields

/-- `msg_t::n_bytes`. -/
def msg_t.n_bytes (m : msg_t) : Nat := (m.n_bits + 7) / 8

/-- `msg_t::unmarshal_tuple`: decode the fields in declaration order,
threading the bit offset forward by each field's `n_bits`.  The first
field whose `unmarshal` reports invalid stops the recursion: its decoded
(invalid) state is stored, the remaining fields keep their previous
contents, `on_error_unmarshal` fires with that field's id, and the
result is `false`. -/
def unmarshal_tuple (bytes : Nat → Nat) (off : Nat) :
    List field_t → List field_t × Bool × List log_event
  | [] => ([], true, [])
  | f :: rest =>
    let f' := f.unmarshal bytes off
    if f'.m_valid then
      let r := unmarshal_tuple bytes (off + f.decl.n_bits) rest
      (f' :: r.1, r.2.1, r.2.2)
    else
      (f' :: rest, false, [.errorUnmarshal f.id])

/-- `std::size_t` subtraction `a - b` for operands already reduced below
`2^64`: wraps modulo `2^64`. -/
def size_t_sub (a b : Nat) : Nat := (a + 2 ^ 64 - b) % 2 ^ 64

/-- `msg_t::on_unmarshal(bytes, len, bit_offset)`.  The size guard
compares `len * 8 - bit_offset` (in `std::size_t` arithmetic) against
`n_bits`; on failure the fields are untouched, `valid` is cleared and no
`on_unmarshal_end` fires.  Otherwise the tuple is decoded, then the
custom validator runs if everything decoded valid, then the callback
fires if the final verdict is valid. -/
def msg_t.on_unmarshal (m : msg_t) (bytes : Nat → Nat) (len off : Nat) :
    msg_t × Bool × List log_event :=
  let got := size_t_sub (len * 8 % 2 ^ 64) (off % 2 ^ 64)
  if got < m.n_bits then
    ({ m with valid := false }, false,
      [.unmarshalStart, .errorBitSize got m.n_bits])
  else
    let r := unmarshal_tuple bytes off m.fields
    let v :=
      match m.m_custom_validator with
      | some cv => r.2.1 && cv r.1
      | none => r.2.1
    ({ m with fields := r.1, valid := v }, v,
      [log_event.unmarshalStart] ++ r.2.2 ++ [log_event.unmarshalEnd] ++
        (if v && m.m_callback then [log_event.callbackRun r.1] else []))

/-- `msg_t::is_valid_tuple`: conjunction of the fields' `is_valid`,
short-circuited at the first invalid field. -/
def is_valid_tuple : List field_t → Bool
  | [] => true
  | f :: rest => if f.m_valid then is_valid_tuple rest else false

/-- `msg_t::is_valid()`: every field valid, and the custom validator (if
present) accepts. -/
def msg_t.is_valid (m : msg_t) : Bool :=
  let v := is_valid_tuple m.fields
  match m.m_custom_validator with
  | some cv => v && cv m.fields
  | none => v

/-- `make_msg(id, cb, fields...)`: a message over the given fields with
a callback and no custom validator. -/
def make_msg (has_callback : Bool) (fs : List field_t) : msg_t :=
  ⟨fs, false, none, has_callback⟩

/-- `make_msg_cat(id, cb, other, fields...)`: a new message whose field
tuple is `std::tuple_cat(other.fields, fields...)`, with the given
callback and no custom validator. -/
def make_msg_cat (other : msg_t) (has_callback : Bool)
    (fs : List field_t) : msg_t :=
  ⟨other.fields ++ fs, false, none, has_callback⟩

/-- Declaration of `first_f` in the example: 4-bit LSB-first field over
`std::uint16_t`, id 0. -/
def first_f : field_decl := ⟨uint16, 4, 0, .little⟩

/-- Declaration of `second_f` in the example: 12-bit LSB-first field
over `std::uint16_t`, id 0. -/
def second_f : field_decl := ⟨uint16, 12, 0, .little⟩

/-- The example message: `first_f::between(0, 2)` then
`second_f::any()`, with a callback. -/
def example_msg : msg_t :=
  make_msg true [field_t.between first_f 0 2, field_t.any second_f]

/-- The example buffer `{0x84, 0x0A}` as a byte function. -/
def bytes1 : Nat → Nat := fun i => [0x84, 0x0A].getD i 0

/-- The example buffer `{0x80, 0x0A}` as a byte function. -/
def bytes2 : Nat → Nat := fun i => [0x80, 0x0A].getD i 0

/-! Bit-level lemmas about the unmarshal and marshal loops. -/

theorem foldl_range_succ {α : Type} (f : α → Nat → α) (a : α) (n : Nat) :
    (List.range (n + 1)).foldl f a = f ((List.range n).foldl f a) n := by
  rw [List.range_succ, List.foldl_append]
  rfl

theorem or_two_mul_add (x b : Nat) (hb : b ≤ 1) :
    2 * x ||| b = 2 * x + b := by
  have h := Nat.mul_add_lt_is_or (i := 1) (a := x) (b := b) (by omega)
  simpa [pow_one] using h.symm

theorem shifted_bit_eq_testBit (x p : Nat) :
    (x >>> p) &&& 1 = (x.testBit p).toNat := by
  rw [Nat.and_one_is_mod, Nat.shiftRight_eq_div_pow, ← Nat.toNat_testBit]

theorem input_bit_lsb_le_one (bytes : Nat → Nat) (i : Nat) :
    input_bit_lsb bytes i ≤ 1 :=
  Nat.and_le_right

theorem input_bit_msb_le_one (bytes : Nat → Nat) (i : Nat) :
    input_bit_msb bytes i ≤ 1 :=
  Nat.and_le_right

theorem testBit_one_iff (i : Nat) : Nat.testBit 1 i = decide (0 = i) := by
  have h := Nat.testBit_two_pow (n := 0) (m := i)
  simpa using h

/-- Bit-level characterization of `lsb_unmarshal`: output bit `j` of the
raw word is input bit `bit_offset + j`, read at byte `(off+j)/8`,
position `(off+j)%8`. -/
theorem lsb_unmarshal_testBit (bytes : Nat → Nat) (off : Nat) :
    ∀ n, n ≤ 32 → ∀ j,
      (lsb_unmarshal n bytes off).testBit j
        = (decide (j < n) && decide (input_bit_lsb bytes (off + j) = 1)) := by
  intro n
  induction n with
  | zero => intro _ j; simp [lsb_unmarshal]
  | succ n ih =>
    intro h32 j
    have hn32 : n ≤ 32 := by omega
    have hb := input_bit_lsb_le_one bytes (off + n)
    have hshift : (input_bit_lsb bytes (off + n) <<< n) % 2 ^ 32
        = input_bit_lsb bytes (off + n) <<< n := by
      apply Nat.mod_eq_of_lt
      calc input_bit_lsb bytes (off + n) <<< n
          = input_bit_lsb bytes (off + n) * 2 ^ n := Nat.shiftLeft_eq _ _
        _ ≤ 1 * 2 ^ n := Nat.mul_le_mul_right _ hb
        _ = 2 ^ n := by ring
        _ < 2 ^ 32 := by
            apply Nat.pow_lt_pow_right (by omega)
            omega
    have hstep : lsb_unmarshal (n + 1) bytes off
        = lsb_unmarshal n bytes off ||| (input_bit_lsb bytes (off + n) <<< n) := by
      unfold lsb_unmarshal
      rw [foldl_range_succ]
      rw [hshift]
    rw [hstep, Nat.testBit_or, ih hn32 j, Nat.testBit_shiftLeft]
    interval_cases hbv : input_bit_lsb bytes (off + n)
    · rcases Nat.lt_trichotomy j n with hj | hj | hj
      · simp only [show (decide (j < n) = true) from by simpa using hj,
          show decide (j < n + 1) = true from by simp; omega]
        simp
      · subst hj
        simp [hbv]
      · have h1 : decide (j < n) = false := by simp; omega
        have h2 : decide (j < n + 1) = false := by simp; omega
        have h3 : Nat.testBit 0 (j - n) = false := Nat.zero_testBit _
        simp [h1, h2, h3, hbv]
    · rcases Nat.lt_trichotomy j n with hj | hj | hj
      · have h1 : decide (j < n) = true := by simpa using hj
        have h2 : decide (j < n + 1) = true := by simp; omega
        have h3 : decide (j ≥ n) = false := by simp; omega
        simp [h1, h2, h3]
      · subst hj
        have h1 : decide (j < j) = false := by simp
        have h2 : decide (j < j + 1) = true := by simp
        have h3 : decide (j ≥ j) = true := by simp
        simp [h1, h2, h3, testBit_one_iff, hbv]
      · have h1 : decide (j < n) = false := by simp; omega
        have h2 : decide (j < n + 1) = false := by simp; omega
        have h3 : Nat.testBit 1 (j - n) = false := by
          rw [testBit_one_iff]
          simp
          omega
        simp [h1, h2, h3]

/-- The raw word produced by `lsb_unmarshal` fits in `n` bits. -/
theorem lsb_unmarshal_lt (bytes : Nat → Nat) (off n : Nat) (h32 : n ≤ 32) :
    lsb_unmarshal n bytes off < 2 ^ n := by
  apply Nat.lt_pow_two_of_testBit
  intro i hi
  rw [lsb_unmarshal_testBit bytes off n h32 i]
  have : decide (i < n) = false := by simp; omega
  simp [this]

/-- The raw word produced by `msb_unmarshal` fits in `n` bits. -/
theorem msb_unmarshal_lt (bytes : Nat → Nat) (off : Nat) :
    ∀ n, n ≤ 32 → msb_unmarshal n bytes off < 2 ^ n := by
  intro n
  induction n with
  | zero => intro _; simp [msb_unmarshal]
  | succ n ih =>
    intro h32
    have hn32 : n ≤ 32 := by omega
    have hlt := ih hn32
    have hb := input_bit_msb_le_one bytes (off + n)
    have hstep : msb_unmarshal (n + 1) bytes off
        = ((msb_unmarshal n bytes off <<< 1) % 2 ^ 32)
            ||| input_bit_msb bytes (off + n) := by
      unfold msb_unmarshal
      rw [foldl_range_succ]
    have hshift : (msb_unmarshal n bytes off <<< 1) % 2 ^ 32
        = 2 * msb_unmarshal n bytes off := by
      rw [Nat.shiftLeft_eq, pow_one, Nat.mul_comm]
      apply Nat.mod_eq_of_lt
      calc 2 * msb_unmarshal n bytes off < 2 * 2 ^ n := by omega
        _ = 2 ^ (n + 1) := by ring
        _ ≤ 2 ^ 32 := Nat.pow_le_pow_right (by omega) h32
    rw [hstep, hshift, or_two_mul_add _ _ hb]
    have : 2 ^ (n + 1) = 2 * 2 ^ n := by ring
    omega

/-- Closed form of the `msb_unmarshal` accumulation: input bit `i` of
the field (read MSB-first within its byte) lands at weight
`2 ^ (n - 1 - i)` of the raw word. -/
theorem msb_unmarshal_eq_sum (bytes : Nat → Nat) (off : Nat) :
    ∀ n, n ≤ 32 →
      msb_unmarshal n bytes off
        = ∑ i ∈ Finset.range n, input_bit_msb bytes (off + i) * 2 ^ (n - 1 - i) := by
  intro n
  induction n with
  | zero => intro _; simp [msb_unmarshal]
  | succ n ih =>
    intro h32
    have hn32 : n ≤ 32 := by omega
    have hb := input_bit_msb_le_one bytes (off + n)
    have hstep : msb_unmarshal (n + 1) bytes off
        = ((msb_unmarshal n bytes off <<< 1) % 2 ^ 32)
            ||| input_bit_msb bytes (off + n) := by
      unfold msb_unmarshal
      rw [foldl_range_succ]
    have hshift : (msb_unmarshal n bytes off <<< 1) % 2 ^ 32
        = 2 * msb_unmarshal n bytes off := by
      rw [Nat.shiftLeft_eq, pow_one, Nat.mul_comm]
      apply Nat.mod_eq_of_lt
      calc 2 * msb_unmarshal n bytes off < 2 * 2 ^ n := by
            have := msb_unmarshal_lt bytes off n hn32
            omega
        _ = 2 ^ (n + 1) := by ring
        _ ≤ 2 ^ 32 := Nat.pow_le_pow_right (by omega) h32
    rw [hstep, hshift, or_two_mul_add _ _ hb, ih hn32]
    rw [Finset.sum_range_succ]
    have hlast : input_bit_msb bytes (off + n) * 2 ^ (n + 1 - 1 - n)
        = input_bit_msb bytes (off + n) := by
      have : n + 1 - 1 - n = 0 := by omega
      rw [this, pow_zero, Nat.mul_one]
    rw [hlast, Finset.mul_sum]
    congr 1
    apply Finset.sum_congr rfl
    intro i hi
    have hi' : i < n := Finset.mem_range.mp hi
    have : n + 1 - 1 - i = (n - 1 - i) + 1 := by omega
    rw [this, pow_succ]
    ring

/-- Bit-level characterization of the `marshal()` scatter loop: after
`n` iterations, bit `b` of byte `k` is source bit `8 * k + b` when that
index was already emitted, and zero otherwise (in particular, all bit
positions at or above `n_bits` stay zero). -/
theorem scatter_testBit (g : Nat → Nat) (hg : ∀ i, g i ≤ 1) :
    ∀ n k b, b < 8 →
      (((List.range n).foldl (scatter_step g) (fun _ => 0)) k).testBit b
        = (decide (8 * k + b < n) && decide (g (8 * k + b) = 1)) := by
  intro n
  induction n with
  | zero => intro k b _; simp
  | succ n ih =>
    intro k b hb
    have hdm := Nat.div_add_mod n 8
    have hm8 : n % 8 < 8 := Nat.mod_lt _ (by omega)
    rw [foldl_range_succ]
    have happ : ∀ (bs : Nat → Nat) (i j : Nat),
        scatter_step g bs i j = if j = i / 8 then bs j ||| (g i <<< (i % 8)) else bs j :=
      fun _ _ _ => rfl
    rw [happ]
    by_cases hk : k = n / 8
    · subst hk
      rw [if_pos rfl]
      rw [Nat.testBit_or, ih (n / 8) b hb, Nat.testBit_shiftLeft]
      by_cases hbn : b = n % 8
      · have hidx : 8 * (n / 8) + b = n := by omega
        rw [hidx]
        have h1 : decide (n < n) = false := by simp
        have h2 : decide (n < n + 1) = true := by simp
        have h3 : decide (b ≥ n % 8) = true := by simp; omega
        have h4 : b - n % 8 = 0 := by omega
        rcases Nat.le_one_iff_eq_zero_or_eq_one.mp (hg n) with hgn | hgn
        · simp [h1, h2, h3, h4, hgn]
        · simp [h1, h2, h3, h4, hgn, testBit_one_iff]
      · have hne : 8 * (n / 8) + b ≠ n := by omega
        have h1 : decide (8 * (n / 8) + b < n + 1)
            = decide (8 * (n / 8) + b < n) := by
          by_cases h : 8 * (n / 8) + b < n
          · simp [h]; omega
          · have h' : ¬ (8 * (n / 8) + b < n + 1) := by omega
            simp [h, h']
        by_cases hbl : b < n % 8
        · have hge : decide (b ≥ n % 8) = false := by simp; omega
          simp [h1, hge]
        · have h3 : Nat.testBit (g n) (b - n % 8) = false := by
            rcases Nat.le_one_iff_eq_zero_or_eq_one.mp (hg n) with hgn | hgn
            · simp [hgn]
            · rw [hgn, testBit_one_iff]
              simp
              omega
          simp [h1, h3]
    · rw [if_neg hk, ih k b hb]
      have hne : 8 * k + b ≠ n := by
        intro h
        apply hk
        have hdiv : n / 8 = k := by
          rw [← h, Nat.mul_add_div (by omega)]
          simp [Nat.div_eq_of_lt hb]
        omega
      have h1 : decide (8 * k + b < n + 1) = decide (8 * k + b < n) := by
        by_cases h : 8 * k + b < n
        · simp [h]; omega
        · have h' : ¬ (8 * k + b < n + 1) := by omega
          simp [h, h']
      rw [h1]

/-! Lemmas about the value representation conversions. -/

theorem ctype.toRaw_lt (t : ctype) (v : Int) : t.toRaw v < 2 ^ t.bits := by
  unfold ctype.toRaw
  have h2 : (0 : Int) < (2 : Int) ^ t.bits := by positivity
  have hlt := Int.emod_lt_of_pos v h2
  have h0 : (0 : Int) ≤ v % ((2 : Int) ^ t.bits) := Int.emod_nonneg v (by omega)
  have hcast : ((2 ^ t.bits : Nat) : Int) = (2 : Int) ^ t.bits := by
    push_cast
    rfl
  rw [Int.toNat_lt h0, hcast]
  exact hlt

theorem ctype.toRaw_ofRaw (t : ctype) (r : Nat) :
    t.toRaw (t.ofRaw r) = r % 2 ^ t.bits := by
  have hlt : r % 2 ^ t.bits < 2 ^ t.bits := Nat.mod_lt _ (by positivity)
  have hcast : ((2 ^ t.bits : Nat) : Int) = (2 : Int) ^ t.bits := by
    push_cast
    rfl
  have hnn : (0 : Int) ≤ ((r % 2 ^ t.bits : Nat) : Int) := Int.natCast_nonneg _
  have hup : ((r % 2 ^ t.bits : Nat) : Int) < (2 : Int) ^ t.bits := by
    omega
  unfold ctype.ofRaw ctype.toRaw
  split
  · rw [show ((r % 2 ^ t.bits : Nat) : Int) - (2 : Int) ^ t.bits
        = ((r % 2 ^ t.bits : Nat) : Int) + (2 : Int) ^ t.bits * (-1) by ring]
    rw [Int.add_mul_emod_self_left, Int.emod_eq_of_lt hnn hup]
    omega
  · rw [Int.emod_eq_of_lt hnn hup]
    omega

theorem ctype.tmax_nonneg (t : ctype) : 0 ≤ t.tmax := by
  unfold ctype.tmax
  split
  · have : (0 : Int) < (2 : Int) ^ (t.bits - 1) := by positivity
    omega
  · have : (0 : Int) < (2 : Int) ^ t.bits := by positivity
    omega

theorem ctype.tmax_lt_two_pow (t : ctype) : t.tmax < (2 : Int) ^ t.bits := by
  unfold ctype.tmax
  split
  · have h1 : (2 : Int) ^ (t.bits - 1) ≤ (2 : Int) ^ t.bits :=
      pow_le_pow_right₀ (by omega) (by omega)
    omega
  · omega

/-- A value already in `[0, tmax]` is unchanged by `static_cast<T>`. -/
theorem ctype.cast_eq_self (t : ctype) (x : Int)
    (h0 : 0 ≤ x) (h1 : x ≤ t.tmax) : t.cast x = x := by
  have hup : x < (2 : Int) ^ t.bits := lt_of_le_of_lt h1 t.tmax_lt_two_pow
  have hxx : ((x.toNat : Int)) = x := Int.toNat_of_nonneg h0
  have hpow : ((2 ^ t.bits : Nat) : Int) = (2 : Int) ^ t.bits := by
    push_cast
    rfl
  have hxlt : x.toNat < 2 ^ t.bits := by omega
  unfold ctype.cast ctype.toRaw ctype.ofRaw
  rw [Int.emod_eq_of_lt h0 hup, Nat.mod_eq_of_lt hxlt]
  have hneg : ¬ ((t.signed && decide (2 ^ (t.bits - 1) ≤ x.toNat)) = true) := by
    by_cases hs : t.signed
    · simp only [hs, Bool.true_and, decide_eq_true_eq]
      intro habs
      have htm : t.tmax = (2 : Int) ^ (t.bits - 1) - 1 := by
        unfold ctype.tmax
        simp [hs]
      have hpc : ((2 ^ (t.bits - 1) : Nat) : Int) = (2 : Int) ^ (t.bits - 1) := by
        push_cast
        rfl
      have hx2 : ((2 ^ (t.bits - 1) : Nat) : Int) ≤ ((x.toNat : Int)) := by
        exact_mod_cast habs
      omega
    · simp [hs]
  rw [if_neg hneg]
  exact hxx

/-- `validate` does not move the value when the installed condition
never rewrites it (every builder except `clamp`). -/
theorem field_t.validate_value_eq (f : field_t)
    (hc : ∀ g, f.m_condition = some g → ∀ x y, (g x y).2 = x) :
    (f.validate).m_value = f.m_value := by
  unfold field_t.validate
  match hval : f.m_condition with
  | none => rfl
  | some c => exact hc c hval f.m_value f.m_value

/-- Raw-level round trip for LSB-first fields: unmarshalling the bytes
produced by `marshal()` at bit offset 0 recovers the low `n_bits` of the
value's bit pattern. -/
theorem lsb_marshal_roundtrip (f : field_t)
    (hend : f.decl.endian = endianess.little)
    (h32 : f.decl.n_bits ≤ 32) :
    lsb_unmarshal f.decl.n_bits f.marshal 0
      = f.decl.T.toRaw f.m_value % 2 ^ f.decl.n_bits := by
  have hm : f.marshal = (List.range f.decl.n_bits).foldl
      (scatter_step (fun i => (f.decl.T.toRaw f.m_value >>> i) &&& 1)) (fun _ => 0) := by
    unfold field_t.marshal
    rw [hend]
  set raw := f.decl.T.toRaw f.m_value with hraw
  set n := f.decl.n_bits with hn
  have hg : ∀ i, ((raw >>> i) &&& 1) ≤ 1 := fun i => Nat.and_le_right
  apply Nat.eq_of_testBit_eq
  intro j
  rw [lsb_unmarshal_testBit f.marshal 0 n h32 j, Nat.testBit_mod_two_pow]
  have hbyte : input_bit_lsb f.marshal (0 + j)
      = (Nat.testBit (f.marshal (j / 8)) (j % 8)).toNat := by
    unfold input_bit_lsb
    rw [Nat.zero_add, shifted_bit_eq_testBit]
  rw [hbyte, hm, scatter_testBit _ hg n (j / 8) (j % 8) (Nat.mod_lt _ (by omega))]
  rw [Nat.div_add_mod j 8]
  rw [shifted_bit_eq_testBit]
  by_cases hj : j < n
  · simp only [show decide (j < n) = true from by simpa using hj, Bool.true_and]
    cases hb : Nat.testBit raw j <;> simp [hb]
  · simp [show decide (j < n) = false from by simp; omega]

/-- Both bit orders of `marshal()` only ever set bit positions drawn
from the field's `n_bits` span: every bit at or above `n_bits` of the
emitted buffer is zero. -/
theorem marshal_high_bits_zero (f : field_t) :
    ∀ k b, b < 8 → f.decl.n_bits ≤ 8 * k + b →
      (f.marshal k).testBit b = false := by
  intro k b hb hn
  unfold field_t.marshal
  cases hend : f.decl.endian
  · simp only
    rw [scatter_testBit _ (fun i => Nat.and_le_right) _ k b hb]
    simp
    omega
  · simp only
    rw [scatter_testBit _ (fun i => Nat.and_le_right) _ k b hb]
    simp
    omega

/-! Claim theorems. -/

/-- C1 (counterexample): the round-trip claim fails for MSB-first
fields.  An 8-bit big-endian `uint8` field holding the value 1 (which
satisfies its default condition) marshals to the byte `0x80`, and
unmarshalling that byte into a fresh field of the same declaration
yields 128, not 1: `marshal()` places bits LSB-first within each byte
while `msb_unmarshal` reads them MSB-first. -/
theorem c1_big_endian_counterexample :
    ((field_t.mk_default ⟨uint8, 8, 0, endianess.big⟩).assign 1).m_valid = true
    ∧ ((field_t.fresh ⟨uint8, 8, 0, endianess.big⟩
          (some (default_condition ⟨uint8, 8, 0, endianess.big⟩))).unmarshal
        ((field_t.mk_default ⟨uint8, 8, 0, endianess.big⟩).assign 1).marshal
        0).m_value = 128
    ∧ ¬ (uint8.toRaw
          ((field_t.fresh ⟨uint8, 8, 0, endianess.big⟩
              (some (default_condition ⟨uint8, 8, 0, endianess.big⟩))).unmarshal
            ((field_t.mk_default ⟨uint8, 8, 0, endianess.big⟩).assign 1).marshal
            0).m_value % 2 ^ 8
        = uint8.toRaw
            ((field_t.mk_default ⟨uint8, 8, 0, endianess.big⟩).assign 1).m_value
          % 2 ^ 8) := by
  refine ⟨by decide, by decide, by decide⟩

/-- C1 (amended): for every LSB-first field declaration, every condition
slot that never rewrites the value (every builder except `clamp`), and
every value that currently satisfies that condition, marshalling and
then unmarshalling the bytes into a fresh field of the same declaration
at bit offset 0 reproduces the value bit-for-bit within its occupied
`n_bits` span, and all unused high-order bits of the marshalled bytes
(in particular of the final byte) are zero. -/
theorem c1_round_trip_little (d : field_decl) (c : Option cond_fn) (v : Int)
    (hend : d.endian = endianess.little)
    (h32 : d.n_bits ≤ 32)
    (hc : ∀ g, c = some g → ∀ x y, (g x y).2 = x)
    (hsat : (field_t.validate ⟨d, v, false, c⟩).m_valid = true) :
    d.T.toRaw ((field_t.fresh d c).unmarshal
        (field_t.marshal ⟨d, v, true, c⟩) 0).m_value
      = d.T.toRaw v % 2 ^ d.n_bits
    ∧ (∀ k b, b < 8 → d.n_bits ≤ 8 * k + b →
        (field_t.marshal ⟨d, v, true, c⟩ k).testBit b = false) := by
  constructor
  · have hraw : lsb_unmarshal d.n_bits (field_t.marshal ⟨d, v, true, c⟩) 0
        = d.T.toRaw v % 2 ^ d.n_bits :=
      lsb_marshal_roundtrip ⟨d, v, true, c⟩ hend h32
    have hval : ((field_t.fresh d c).unmarshal
        (field_t.marshal ⟨d, v, true, c⟩) 0).m_value
        = d.T.ofRaw (d.T.toRaw v % 2 ^ d.n_bits) := by
      unfold field_t.unmarshal field_t.fresh
      rw [hend]
      simp only
      rw [field_t.validate_value_eq _ (by intro g hg x y; exact hc g hg x y)]
      rw [hraw]
    rw [hval, ctype.toRaw_ofRaw]
    apply Nat.mod_eq_of_lt
    calc d.T.toRaw v % 2 ^ d.n_bits ≤ d.T.toRaw v := Nat.mod_le _ _
      _ < 2 ^ d.T.bits := d.T.toRaw_lt v
  · exact marshal_high_bits_zero ⟨d, v, true, c⟩

/-- C1 (witness): the amended round trip instantiated at a 4-bit
LSB-first `uint16` field with its default condition and value 9. -/
theorem c1_round_trip_little_witness :
    uint16.toRaw ((field_t.fresh first_f (some (default_condition first_f))).unmarshal
        (field_t.marshal ⟨first_f, 9, true, some (default_condition first_f)⟩) 0).m_value
      = uint16.toRaw 9 % 2 ^ 4 :=
  (c1_round_trip_little first_f (some (default_condition first_f)) 9 rfl
    (by decide)
    (by intro g hg x y; cases hg; rfl)
    (by decide)).1

/-- The bound the spec's words prescribe for the default range check:
`min(type-max, 2^n_bits - 1)`, except that at full type width the bound
is the type's maximum. -/
def spec_default_bound (t : ctype) (n : Nat) : Int :=
  if n = t.bits then t.tmax else min t.tmax ((2 : Int) ^ n - 1)

/-- C2 (counterexample): for a signed 8-bit value type at full width
(`n_bits = 8`), the claim says value 0 is valid (it lies in
`[-128, 127]`), but the code computes `static_cast<int8_t>((1 << 8) - 1)
= -1` as the upper bound, so `validate()` rejects 0. -/
theorem c2_signed_full_width_counterexample :
    ((field_t.mk_default ⟨int8, 8, 0, endianess.little⟩).assign 0).m_valid = false
    ∧ int8.tmin ≤ 0 ∧ (0 : Int) ≤ spec_default_bound int8 8 := by
  refine ⟨by decide, by decide, by decide⟩

/-- The code's default bound agrees with the spec's words whenever the
value type is unsigned, or the width is strictly below the type's
width, or the width is exactly 32. -/
theorem default_max_eq_spec_bound (t : ctype) (n : Nat)
    (hn : n ≤ t.bits) (h32 : t.bits ≤ 32)
    (hx : t.signed = false ∨ n ≠ t.bits ∨ n = 32) :
    default_max t n = spec_default_bound t n := by
  unfold default_max spec_default_bound
  by_cases h32n : n = 32
  · have hb : n = t.bits := by omega
    rw [if_pos h32n, if_pos hb]
  · rw [if_neg h32n]
    by_cases hfull : n = t.bits
    · rw [if_pos hfull]
      have hsu : t.signed = false := by
        rcases hx with h | h | h
        · exact h
        · exact absurd hfull h
        · exact absurd h h32n
      have htm : t.tmax = (2 : Int) ^ t.bits - 1 := by
        unfold ctype.tmax
        rw [hsu]
        simp
      rw [hfull, htm]
      unfold ctype.cast ctype.toRaw ctype.ofRaw
      have hpos : (0 : Int) < (2 : Int) ^ t.bits := by positivity
      have hmod : ((2 : Int) ^ t.bits - 1) % (2 : Int) ^ t.bits
          = (2 : Int) ^ t.bits - 1 := Int.emod_eq_of_lt (by omega) (by omega)
      rw [hmod]
      have hpow : ((2 ^ t.bits : Nat) : Int) = (2 : Int) ^ t.bits := by
        push_cast
        rfl
      have htn : ((2 : Int) ^ t.bits - 1).toNat = 2 ^ t.bits - 1 := by omega
      rw [htn]
      have hlt : 2 ^ t.bits - 1 < 2 ^ t.bits := by
        have : 0 < 2 ^ t.bits := by positivity
        omega
      rw [Nat.mod_eq_of_lt hlt]
      have hneg : ¬ ((t.signed && decide (2 ^ (t.bits - 1) ≤ 2 ^ t.bits - 1)) = true) := by
        rw [hsu]
        simp
      rw [if_neg hneg]
      omega
    · rw [if_neg hfull]
      have hlt : n < t.bits := by omega
      have hle : (2 : Int) ^ n - 1 ≤ t.tmax := by
        unfold ctype.tmax
        split
        · have : (2 : Int) ^ n ≤ (2 : Int) ^ (t.bits - 1) :=
            pow_le_pow_right₀ (by omega) (by omega)
          omega
        · have : (2 : Int) ^ n ≤ (2 : Int) ^ t.bits :=
            pow_le_pow_right₀ (by omega) (by omega)
          omega
      have hnn : (0 : Int) ≤ (2 : Int) ^ n - 1 := by
        have : (0 : Int) < (2 : Int) ^ n := by positivity
        omega
      rw [t.cast_eq_self _ hnn hle]
      omega

/-- C2 (amended): for every field carrying the default condition (no
explicit condition set), provided the value type is unsigned, or
`n_bits` is strictly below the type's bit width, or `n_bits = 32`,
`validate()` sets `valid` to true iff the value lies in
`[type-min, min(type-max, 2^n_bits - 1)]`, with the type's maximum as
the bound when `n_bits` equals the full width.  (For a signed type at
full width below 32 the code instead uses the wrapped bound
`static_cast<T>(2^n_bits - 1)`, see the counterexample.) -/
theorem c2_default_range_check (t : ctype) (n tid : Nat) (e : endianess) (v : Int)
    (hn : n ≤ t.bits) (h32 : t.bits ≤ 32)
    (hx : t.signed = false ∨ n ≠ t.bits ∨ n = 32) :
    ((field_t.mk_default ⟨t, n, tid, e⟩).assign v).m_valid = true
      ↔ (t.tmin ≤ v ∧ v ≤ spec_default_bound t n) := by
  have hcond : ((field_t.mk_default ⟨t, n, tid, e⟩).assign v).m_valid
      = (decide (t.tmin ≤ v) && decide (v ≤ default_max t n)) := rfl
  rw [hcond, default_max_eq_spec_bound t n hn h32 hx]
  simp

/-- C2 (witness): a 4-bit field over `uint16` with no explicit
condition accepts the value 15, whose bound `min(65535, 15) = 15` is
the one the spec names. -/
theorem c2_default_range_check_witness :
    ((field_t.mk_default ⟨uint16, 4, 0, endianess.little⟩).assign 15).m_valid = true
      ↔ (uint16.tmin ≤ 15 ∧ (15 : Int) ≤ spec_default_bound uint16 4) :=
  c2_default_range_check uint16 4 0 endianess.little 15
    (by decide) (by decide) (Or.inl rfl)

/-- C6: bit extraction of field unmarshal.  LSB-first: output bit `i`
of the raw word equals input bit at byte `(bit_offset+i)/8`, position
`(bit_offset+i)%8`, placed at output position `i` (and no output bit
beyond `n_bits` is set).  MSB-first: the accumulated raw word is the sum
of the input bits at byte `(bit_offset+i)/8`, position
`7 - ((bit_offset+i)%8)`, weighted MSB-first. -/
theorem c6_bit_extraction (bytes : Nat → Nat) (off n : Nat) (h32 : n ≤ 32) :
    (∀ i, i < n →
      (lsb_unmarshal n bytes off).testBit i
        = decide (input_bit_lsb bytes (off + i) = 1))
    ∧ (∀ i, n ≤ i → (lsb_unmarshal n bytes off).testBit i = false)
    ∧ msb_unmarshal n bytes off
        = ∑ i ∈ Finset.range n, input_bit_msb bytes (off + i) * 2 ^ (n - 1 - i) := by
  refine ⟨?_, ?_, msb_unmarshal_eq_sum bytes off n h32⟩
  · intro i hi
    rw [lsb_unmarshal_testBit bytes off n h32 i]
    simp [hi]
  · intro i hi
    rw [lsb_unmarshal_testBit bytes off n h32 i]
    have : ¬ (i < n) := by omega
    simp [this]

/-- C6 (witness): the extraction rules instantiated on the example
buffer `{0x84, 0x0A}` for a 12-bit span at bit offset 4. -/
theorem c6_bit_extraction_witness :
    (lsb_unmarshal 12 bytes1 4).testBit 3 = decide (input_bit_lsb bytes1 (4 + 3) = 1)
    ∧ (lsb_unmarshal 12 bytes1 4).testBit 12 = false :=
  ⟨(c6_bit_extraction bytes1 4 12 (by omega)).1 3 (by omega),
   (c6_bit_extraction bytes1 4 12 (by omega)).2.1 12 (by omega)⟩

/-- C9 (counterexample): a field configured by `any()` over `uint16`
with 4 bits rejects the assigned value 16: `any()` returns a
default-constructed field, whose condition is the default range check,
not an always-true predicate. -/
theorem c9_any_counterexample :
    ((field_t.any ⟨uint16, 4, 0, endianess.little⟩).assign 16).m_valid = false := by
  decide

/-- C9 (amended): a field whose condition was configured by the `any()`
builder carries the default range condition, so running the condition
(here via assignment, which stores the value and re-validates) sets
`valid` to true exactly when the default range check passes, not for
every candidate value. -/
theorem c9_any_is_default_range (d : field_decl) (v : Int) :
    ((field_t.any d).assign v).m_valid
      = (decide (d.T.tmin ≤ v) && decide (v ≤ default_max d.T d.n_bits)) := rfl

/-! Lemmas about the message decode recursion. -/

theorem unmarshal_tuple_nil (bytes : Nat → Nat) (off : Nat) :
    unmarshal_tuple bytes off [] = ([], true, []) := rfl

theorem unmarshal_tuple_cons (bytes : Nat → Nat) (off : Nat)
    (f : field_t) (rest : List field_t) :
    unmarshal_tuple bytes off (f :: rest)
      = if (f.unmarshal bytes off).m_valid then
          (f.unmarshal bytes off
              :: (unmarshal_tuple bytes (off + f.decl.n_bits) rest).1,
           (unmarshal_tuple bytes (off + f.decl.n_bits) rest).2.1,
           (unmarshal_tuple bytes (off + f.decl.n_bits) rest).2.2)
        else
          (f.unmarshal bytes off :: rest, false,
           [log_event.errorUnmarshal f.id]) := rfl

theorem sum_bits_nil : sum_bits [] = 0 := rfl

theorem sum_bits_cons (f : field_t) (fs : List field_t) :
    sum_bits (f :: fs) = f.decl.n_bits + sum_bits fs := by
  unfold sum_bits
  simp

/-- A fully successful decode emits no logger events. -/
theorem unmarshal_tuple_ok_events (bytes : Nat → Nat) :
    ∀ (fs : List field_t) (off : Nat),
      (unmarshal_tuple bytes off fs).2.1 = true →
      (unmarshal_tuple bytes off fs).2.2 = [] := by
  intro fs
  induction fs with
  | nil => intro off _; rfl
  | cons f rest ih =>
    intro off h
    by_cases hv : (f.unmarshal bytes off).m_valid = true
    · rw [unmarshal_tuple_cons, if_pos hv] at h ⊢
      exact ih (off + f.decl.n_bits) h
    · rw [unmarshal_tuple_cons, if_neg hv] at h
      exact absurd h (by simp)

/-- Decoding never changes the number of fields. -/
theorem unmarshal_tuple_length (bytes : Nat → Nat) :
    ∀ (fs : List field_t) (off : Nat),
      (unmarshal_tuple bytes off fs).1.length = fs.length := by
  intro fs
  induction fs with
  | nil => intro off; rfl
  | cons f rest ih =>
    intro off
    by_cases hv : (f.unmarshal bytes off).m_valid = true
    · rw [unmarshal_tuple_cons, if_pos hv]
      simp [ih]
    · rw [unmarshal_tuple_cons, if_neg hv]
      simp

/-- If the whole decode of `xs ++ ys` succeeds, so does the decode of
the prefix `xs`. -/
theorem unmarshal_tuple_append_fst_ok (bytes : Nat → Nat) :
    ∀ (xs ys : List field_t) (off : Nat),
      (unmarshal_tuple bytes off (xs ++ ys)).2.1 = true →
      (unmarshal_tuple bytes off xs).2.1 = true := by
  intro xs
  induction xs with
  | nil => intro ys off _; rfl
  | cons f rest ih =>
    intro ys off h
    by_cases hv : (f.unmarshal bytes off).m_valid = true
    · rw [List.cons_append, unmarshal_tuple_cons, if_pos hv] at h
      rw [unmarshal_tuple_cons, if_pos hv]
      exact ih ys (off + f.decl.n_bits) h
    · rw [List.cons_append, unmarshal_tuple_cons, if_neg hv] at h
      exact absurd h (by simp)

/-- When the prefix decodes validly, decoding `xs ++ ys` decodes `xs`
and continues into `ys` at the accumulated bit offset. -/
theorem unmarshal_tuple_append_ok (bytes : Nat → Nat) :
    ∀ (xs ys : List field_t) (off : Nat),
      (unmarshal_tuple bytes off xs).2.1 = true →
      unmarshal_tuple bytes off (xs ++ ys)
        = ((unmarshal_tuple bytes off xs).1
            ++ (unmarshal_tuple bytes (off + sum_bits xs) ys).1,
           (unmarshal_tuple bytes (off + sum_bits xs) ys).2.1,
           (unmarshal_tuple bytes (off + sum_bits xs) ys).2.2) := by
  intro xs
  induction xs with
  | nil =>
    intro ys off _
    rw [List.nil_append, sum_bits_nil, Nat.add_zero, unmarshal_tuple_nil]
    simp
  | cons f rest ih =>
    intro ys off h
    by_cases hv : (f.unmarshal bytes off).m_valid = true
    · rw [unmarshal_tuple_cons, if_pos hv] at h
      simp only at h
      rw [List.cons_append, unmarshal_tuple_cons, if_pos hv,
        ih ys (off + f.decl.n_bits) h, unmarshal_tuple_cons, if_pos hv,
        sum_bits_cons]
      have hoff : off + f.decl.n_bits + sum_bits rest
          = off + (f.decl.n_bits + sum_bits rest) := by omega
      rw [hoff]
      simp
    · rw [unmarshal_tuple_cons, if_neg hv] at h
      exact absurd h (by simp)

/-- In a fully valid decode, field `j` of the result is exactly the
independent decode of field `j` at the offset accumulated over the
preceding fields. -/
theorem unmarshal_tuple_ok_getD (bytes : Nat → Nat) (dflt : field_t) :
    ∀ (fs : List field_t) (off : Nat),
      (unmarshal_tuple bytes off fs).2.1 = true →
      ∀ j, j < fs.length →
        (unmarshal_tuple bytes off fs).1.getD j dflt
          = (fs.getD j dflt).unmarshal bytes (off + sum_bits (fs.take j)) := by
  intro fs
  induction fs with
  | nil => intro off _ j hj; exact absurd hj (by simp)
  | cons f rest ih =>
    intro off h j hj
    by_cases hv : (f.unmarshal bytes off).m_valid = true
    · rw [unmarshal_tuple_cons, if_pos hv] at h ⊢
      match j with
      | 0 =>
        simp [sum_bits_nil]
      | Nat.succ j' =>
        have hj' : j' < rest.length := by
          simp at hj
          omega
        have := ih (off + f.decl.n_bits) h j' hj'
        simp only [List.getD_cons_succ, List.take_succ_cons, sum_bits_cons]
        rw [this]
        have hoff : off + f.decl.n_bits + sum_bits (rest.take j')
            = off + (f.decl.n_bits + sum_bits (rest.take j')) := by omega
        rw [hoff]
    · rw [unmarshal_tuple_cons, if_neg hv] at h
      exact absurd h (by simp)

/-- The decode recursion never reports a bit-size error. -/
theorem unmarshal_tuple_no_bitsize (bytes : Nat → Nat) :
    ∀ (fs : List field_t) (off g e : Nat),
      log_event.errorBitSize g e ∉ (unmarshal_tuple bytes off fs).2.2 := by
  intro fs
  induction fs with
  | nil => intro off g e; simp [unmarshal_tuple_nil]
  | cons f rest ih =>
    intro off g e
    by_cases hv : (f.unmarshal bytes off).m_valid = true
    · rw [unmarshal_tuple_cons, if_pos hv]
      exact ih (off + f.decl.n_bits) g e
    · rw [unmarshal_tuple_cons, if_neg hv]
      simp

/-- A list containing an invalid field is rejected by
`is_valid_tuple`. -/
theorem is_valid_tuple_false_of_mem :
    ∀ (fs : List field_t) (f : field_t), f ∈ fs → f.m_valid = false →
      is_valid_tuple fs = false := by
  intro fs
  induction fs with
  | nil => intro f hf _; exact absurd hf (by simp)
  | cons g rest ih =>
    intro f hf hfv
    rcases List.mem_cons.mp hf with hf1 | hf2
    · subst hf1
      unfold is_valid_tuple
      rw [hfv]
      simp
    · unfold is_valid_tuple
      by_cases hg : g.m_valid = true
      · rw [hg]
        simpa using ih f hf2 hfv
      · simp at hg
        rw [hg]
        simp

theorem size_t_sub_no_wrap (a b : Nat) (ha : a < 2 ^ 64) (hb : b ≤ a) :
    size_t_sub a b = a - b := by
  unfold size_t_sub
  have h1 : a + 2 ^ 64 - b = (a - b) + 2 ^ 64 := by omega
  rw [h1, Nat.add_mod_right, Nat.mod_eq_of_lt (by omega)]

theorem size_t_sub_wrap (a b : Nat) (hab : a < b) (hb : b < 2 ^ 64) :
    size_t_sub a b = a + (2 ^ 64 - b) := by
  unfold size_t_sub
  have h1 : a + 2 ^ 64 - b = a + (2 ^ 64 - b) := by omega
  rw [h1, Nat.mod_eq_of_lt (by omega)]

/-- Default field used as the `getD` fallback when projecting decoded
field lists in the concrete claims. -/
def dflt_field : field_t := field_t.fresh ⟨uint8, 0, 0, endianess.little⟩ none

/-- C3: when the remaining bit budget `len*8 - bit_offset` (computed
without wrap-around, see C10 for the wrapping case) is smaller than the
message's `n_bits`, `on_unmarshal` fails immediately: the fields are
exactly the ones from before the call, the aggregate flag is cleared,
the bit-size error is reported once (and no decode or end event
happens), and the call returns false. -/
theorem c3_buffer_too_short (m : msg_t) (bytes : Nat → Nat) (len off : Nat)
    (hlen : len * 8 < 2 ^ 64) (hoff : off ≤ len * 8)
    (hshort : len * 8 - off < m.n_bits) :
    m.on_unmarshal bytes len off
      = ({ m with valid := false }, false,
         [log_event.unmarshalStart,
          log_event.errorBitSize (len * 8 - off) m.n_bits]) := by
  have h1 : len * 8 % 2 ^ 64 = len * 8 := Nat.mod_eq_of_lt hlen
  have h2 : off % 2 ^ 64 = off := Nat.mod_eq_of_lt (by omega)
  simp only [msg_t.on_unmarshal, h1, h2,
    size_t_sub_no_wrap (len * 8) off hlen hoff]
  rw [if_pos hshort]

/-- C3 (witness): the example two-field message (16 bits) rejects a
one-byte buffer at offset 0 without touching any field. -/
theorem c3_buffer_too_short_witness :
    example_msg.on_unmarshal bytes1 1 0
      = ({ example_msg with valid := false }, false,
         [log_event.unmarshalStart,
          log_event.errorBitSize (1 * 8 - 0) example_msg.n_bits]) :=
  c3_buffer_too_short example_msg bytes1 1 0 (by decide) (by decide) (by decide)

/-- C4: if the size guard passes, the fields before position `k` all
decode valid, and the `k`-th field's decode reports invalid, then
decoding aborts at field `k`: the failing field's decoded value is
stored (marked invalid), every later field keeps its previous contents,
`on_error_unmarshal` fires with the failing field's id, no custom
validator output is consulted and no callback fires, the call returns
false, and `is_valid()` is false on the resulting message. -/
theorem c4_field_failure_aborts (m : msg_t) (bytes : Nat → Nat) (len off : Nat)
    (pre post : List field_t) (fk : field_t)
    (hfields : m.fields = pre ++ fk :: post)
    (hsize : ¬ (size_t_sub (len * 8 % 2 ^ 64) (off % 2 ^ 64) < m.n_bits))
    (hpre : (unmarshal_tuple bytes off pre).2.1 = true)
    (hfail : (fk.unmarshal bytes (off + sum_bits pre)).m_valid = false) :
    m.on_unmarshal bytes len off
      = ({ m with
            fields := ((unmarshal_tuple bytes off pre).1
              ++ fk.unmarshal bytes (off + sum_bits pre) :: post),
            valid := false }, false,
         [log_event.unmarshalStart, log_event.errorUnmarshal fk.id,
          log_event.unmarshalEnd])
    ∧ (m.on_unmarshal bytes len off).1.is_valid = false := by
  have hdec : unmarshal_tuple bytes off m.fields
      = ((unmarshal_tuple bytes off pre).1
          ++ fk.unmarshal bytes (off + sum_bits pre) :: post,
         false, [log_event.errorUnmarshal fk.id]) := by
    rw [hfields, unmarshal_tuple_append_ok bytes pre (fk :: post) off hpre,
      unmarshal_tuple_cons, if_neg (by rw [hfail]; simp)]
  have hres : m.on_unmarshal bytes len off
      = ({ m with
            fields := ((unmarshal_tuple bytes off pre).1
              ++ fk.unmarshal bytes (off + sum_bits pre) :: post),
            valid := false }, false,
         [log_event.unmarshalStart, log_event.errorUnmarshal fk.id,
          log_event.unmarshalEnd]) := by
    simp only [msg_t.on_unmarshal]
    rw [if_neg hsize, hdec]
    rcases hcv : m.m_custom_validator with _ | cv
    · simp
    · simp
  refine ⟨hres, ?_⟩
  rw [hres]
  unfold msg_t.is_valid
  have hmem : fk.unmarshal bytes (off + sum_bits pre)
      ∈ (unmarshal_tuple bytes off pre).1
          ++ fk.unmarshal bytes (off + sum_bits pre) :: post := by
    simp
  have hivt := is_valid_tuple_false_of_mem _ _ hmem hfail
  simp only [hivt]
  rcases m.m_custom_validator with _ | cv
  · simp
  · simp

/-- C4 (witness): decoding `{0x84, 0x0A}` with the example message
aborts at `first_f` (4 fails `between(0,2)`) and `is_valid()` is false
afterwards. -/
theorem c4_field_failure_aborts_witness :
    (example_msg.on_unmarshal bytes1 2 0).1.is_valid = false :=
  (c4_field_failure_aborts example_msg bytes1 2 0
    [] [field_t.any second_f] (field_t.between first_f 0 2)
    rfl (by decide) rfl (by decide)).2

/-- C5: when every field decodes validly, the custom validator (run on
the fully populated field list) decides the outcome: if it rejects, the
call returns false and no callback event fires; if it accepts or is
absent, the call returns true and, when a callback is attached, exactly
one callback event fires, after `on_unmarshal_end`, carrying the fully
populated fields. -/
theorem c5_validator_and_callback (m : msg_t) (bytes : Nat → Nat)
    (len off : Nat) (fs : List field_t)
    (hsize : ¬ (size_t_sub (len * 8 % 2 ^ 64) (off % 2 ^ 64) < m.n_bits))
    (hdec : unmarshal_tuple bytes off m.fields = (fs, true, [])) :
    (∀ cv, m.m_custom_validator = some cv → cv fs = false →
      m.on_unmarshal bytes len off
        = ({ m with fields := fs, valid := false }, false,
           [log_event.unmarshalStart, log_event.unmarshalEnd]))
    ∧ ((m.m_custom_validator = none ∨
        (∃ cv, m.m_custom_validator = some cv ∧ cv fs = true)) →
      m.on_unmarshal bytes len off
        = ({ m with fields := fs, valid := true }, true,
           [log_event.unmarshalStart, log_event.unmarshalEnd]
             ++ (if m.m_callback then [log_event.callbackRun fs] else []))) := by
  constructor
  · intro cv hcv hcvf
    simp only [msg_t.on_unmarshal]
    rw [if_neg hsize, hdec, hcv]
    simp [hcvf]
  · intro hacc
    simp only [msg_t.on_unmarshal]
    rw [if_neg hsize, hdec]
    rcases hacc with hnone | ⟨cv, hcv, hcvt⟩
    · rw [hnone]
      simp
    · rw [hcv]
      simp [hcvt]

/-- The example message with an always-rejecting custom validator
attached. -/
def msg_cv : msg_t :=
  { example_msg with m_custom_validator := some (fun _ => false) }

/-- C5 (witness): on the all-valid buffer `{0x80, 0x0A}`, the rejecting
custom validator makes the call return false with no callback event. -/
theorem c5_validator_and_callback_witness :
    msg_cv.on_unmarshal bytes2 2 0
      = ({ msg_cv with
            fields := (unmarshal_tuple bytes2 0 msg_cv.fields).1,
            valid := false }, false,
         [log_event.unmarshalStart, log_event.unmarshalEnd]) :=
  (c5_validator_and_callback msg_cv bytes2 2 0
      (unmarshal_tuple bytes2 0 msg_cv.fields).1
      (by decide) rfl).1 (fun _ => false) rfl rfl

/-- C7 (counterexample): decoding `{0x84, 0x0A}` with the example
message does NOT build `second_f` from bits 4 to 15: `first_f` decodes
to 4, fails `between(0,2)`, and the decode aborts, leaving `second_f`
at its prior value 0, while bits 4 to 15 of the buffer decode to 168. -/
theorem c7_ordering_counterexample :
    ((example_msg.on_unmarshal bytes1 2 0).1.fields.getD 1 dflt_field).m_value = 0
    ∧ uint16.ofRaw (lsb_unmarshal 12 bytes1 (0 + 4)) = 168
    ∧ ¬ (((example_msg.on_unmarshal bytes1 2 0).1.fields.getD 1 dflt_field).m_value
          = uint16.ofRaw (lsb_unmarshal 12 bytes1 (0 + 4))) := by
  refine ⟨by decide, by decide, by decide⟩

/-- C7 (amended): fields decode strictly in declaration order with a
running bit offset.  On `{0x84, 0x0A}` the example message decodes
`first_f = 4` (low nibble of the first byte), which fails
`between(0,2)`, so the decode aborts: `second_f` keeps its prior value
0 and the message reports invalid.  On `{0x80, 0x0A}` it decodes
`first_f = 0` and then `second_f` from bits 4 to 15 at the running
offset 4 (value 168), and the message reports valid. -/
theorem c7_ordering_and_offsets :
    (((example_msg.on_unmarshal bytes1 2 0).1.fields.getD 0 dflt_field).m_value = 4
      ∧ ((example_msg.on_unmarshal bytes1 2 0).1.fields.getD 0 dflt_field).m_valid = false
      ∧ ((example_msg.on_unmarshal bytes1 2 0).1.fields.getD 1 dflt_field).m_value = 0
      ∧ (example_msg.on_unmarshal bytes1 2 0).2.1 = false
      ∧ (example_msg.on_unmarshal bytes1 2 0).1.is_valid = false)
    ∧ (((example_msg.on_unmarshal bytes2 2 0).1.fields.getD 0 dflt_field).m_value = 0
      ∧ ((example_msg.on_unmarshal bytes2 2 0).1.fields.getD 1 dflt_field).m_value
          = uint16.ofRaw (lsb_unmarshal 12 bytes2 (0 + 4))
      ∧ ((example_msg.on_unmarshal bytes2 2 0).1.fields.getD 1 dflt_field).m_value = 168
      ∧ (example_msg.on_unmarshal bytes2 2 0).2.1 = true
      ∧ (example_msg.on_unmarshal bytes2 2 0).1.is_valid = true) := by
  refine ⟨⟨by decide, by decide, by decide, by decide, by decide⟩,
          ⟨by decide, by decide, by decide, by decide, by decide⟩⟩

/-- C8 (counterexample): concatenation equivalence fails on a buffer
where a field of the base message decodes invalid.  With
`A = [first_f between(0,2)]`, `D = [second_f any]` and buffer
`{0x84, 0x0A}`, decoding `C = make_msg_cat(A, D)` aborts at the first
field and leaves the `D` field at 0, while unmarshalling the `D` field
independently at its cumulative offset 4 yields 168. -/
theorem c8_concatenation_counterexample :
    (((make_msg_cat (make_msg true [field_t.between first_f 0 2]) true
          [field_t.any second_f]).on_unmarshal bytes1 2 0).1.fields.getD 1
        dflt_field).m_value = 0
    ∧ ((field_t.any second_f).unmarshal bytes1
        (0 + sum_bits [field_t.between first_f 0 2])).m_value = 168
    ∧ ¬ ((((make_msg_cat (make_msg true [field_t.between first_f 0 2]) true
            [field_t.any second_f]).on_unmarshal bytes1 2 0).1.fields.getD 1
          dflt_field).m_value
        = ((field_t.any second_f).unmarshal bytes1
            (0 + sum_bits [field_t.between first_f 0 2])).m_value) := by
  refine ⟨by decide, by decide, by decide⟩

/-- C8 (amended): the message built by `make_msg_cat` from `A` and new
fields `D` has `n_fields = A.n_fields + count(D)`, and on every buffer
on which all of its fields decode validly, its decode is the decode of
`A`'s fields followed by the decode of `D`, where `A`'s part succeeds
and each field of `D` equals its independent `unmarshal` at the
cumulative bit offset `A.n_bits` plus the widths of the preceding `D`
fields. -/
theorem c8_concatenation (a : msg_t) (d_fields : List field_t) (hc : Bool)
    (bytes : Nat → Nat) (off : Nat) (dflt : field_t)
    (hok : (unmarshal_tuple bytes off (make_msg_cat a hc d_fields).fields).2.1
        = true) :
    (make_msg_cat a hc d_fields).n_fields = a.n_fields + d_fields.length
    ∧ (unmarshal_tuple bytes off (make_msg_cat a hc d_fields).fields).1
        = (unmarshal_tuple bytes off a.fields).1
          ++ (unmarshal_tuple bytes (off + a.n_bits) d_fields).1
    ∧ (unmarshal_tuple bytes off a.fields).2.1 = true
    ∧ (∀ j, j < d_fields.length →
        (unmarshal_tuple bytes (off + a.n_bits) d_fields).1.getD j dflt
          = (d_fields.getD j dflt).unmarshal bytes
              (off + a.n_bits + sum_bits (d_fields.take j))) := by
  have hcat : (make_msg_cat a hc d_fields).fields = a.fields ++ d_fields := rfl
  rw [hcat] at hok
  have hpre := unmarshal_tuple_append_fst_ok bytes a.fields d_fields off hok
  have happ := unmarshal_tuple_append_ok bytes a.fields d_fields off hpre
  have hdok : (unmarshal_tuple bytes (off + sum_bits a.fields) d_fields).2.1
      = true := by
    rw [happ] at hok
    exact hok
  have hnb : (msg_t.n_bits a) = sum_bits a.fields := rfl
  refine ⟨?_, ?_, hpre, ?_⟩
  · unfold make_msg_cat msg_t.n_fields
    simp
  · rw [hcat, happ, hnb]
  · intro j hj
    rw [hnb]
    exact unmarshal_tuple_ok_getD bytes dflt d_fields
      (off + sum_bits a.fields) hdok j hj

/-- C8 (witness): the amended concatenation equivalence on the all-valid
buffer `{0x80, 0x0A}`: the concatenated message has 2 fields and its
second field decodes exactly like the independent decode at offset 4. -/
theorem c8_concatenation_witness :
    (make_msg_cat (make_msg true [field_t.between first_f 0 2]) true
        [field_t.any second_f]).n_fields
      = (make_msg true [field_t.between first_f 0 2]).n_fields + 1 :=
  (c8_concatenation (make_msg true [field_t.between first_f 0 2])
    [field_t.any second_f] true bytes2 0 dflt_field (by decide)).1

/-- C10: when `bit_offset > 8*len`, the `std::size_t` subtraction
`len*8 - bit_offset` in the size guard wraps modulo `2^64` to a huge
value, so the buffer-too-short branch is not taken: no bit-size error is
reported and the call proceeds to decode the fields at the oversized
offset. -/
theorem c10_offset_wrap (m : msg_t) (bytes : Nat → Nat) (len off : Nat)
    (hlen : len * 8 < 2 ^ 64) (hoff : off < 2 ^ 64)
    (hgt : len * 8 < off) (hnb : off + m.n_bits ≤ 2 ^ 64) :
    size_t_sub (len * 8 % 2 ^ 64) (off % 2 ^ 64) = len * 8 + (2 ^ 64 - off)
    ∧ ¬ (size_t_sub (len * 8 % 2 ^ 64) (off % 2 ^ 64) < m.n_bits)
    ∧ (m.on_unmarshal bytes len off).1.fields
        = (unmarshal_tuple bytes off m.fields).1
    ∧ (∀ g e, log_event.errorBitSize g e ∉ (m.on_unmarshal bytes len off).2.2) := by
  have h1 : len * 8 % 2 ^ 64 = len * 8 := Nat.mod_eq_of_lt hlen
  have h2 : off % 2 ^ 64 = off := Nat.mod_eq_of_lt hoff
  have hsub : size_t_sub (len * 8 % 2 ^ 64) (off % 2 ^ 64)
      = len * 8 + (2 ^ 64 - off) := by
    rw [h1, h2]
    exact size_t_sub_wrap (len * 8) off hgt hoff
  have hge : ¬ (size_t_sub (len * 8 % 2 ^ 64) (off % 2 ^ 64) < m.n_bits) := by
    rw [hsub]
    omega
  refine ⟨hsub, hge, ?_, ?_⟩
  · simp only [msg_t.on_unmarshal]
    rw [if_neg hge]
  · intro g e
    simp only [msg_t.on_unmarshal]
    rw [if_neg hge]
    intro hmem
    simp only [List.mem_append] at hmem
    rcases hmem with ((h | h) | h) | h
    · simp at h
    · exact unmarshal_tuple_no_bitsize bytes m.fields off g e h
    · simp at h
    · split at h
      · simp at h
      · simp at h

/-- C10 (witness): a zero-length buffer with bit offset 1 slips past the
size guard of the 16-bit example message and the fields are decoded. -/
theorem c10_offset_wrap_witness :
    (example_msg.on_unmarshal bytes1 0 1).1.fields
      = (unmarshal_tuple bytes1 1 example_msg.fields).1 :=
  (c10_offset_wrap example_msg bytes1 0 1
    (by decide) (by decide) (by decide) (by decide)).2.2.1

end bit
end cgx
